import Mathlib

-- Verification of the workflow graph model and turn-execution engine of
-- AgentPilot (src/members/workflow.py, src/utils/helpers.py).
-- Dicts of the source are embedded as structures; ids are strings, as the
-- source coerces every id with str(); the Python recursion and the
-- while-loop of load_members are embedded with an explicit fuel parameter,
-- where running out of fuel models the divergence of the source.

set_option maxHeartbeats 1000000

namespace AgentPilot

/-! Configuration documents (the dict shapes consumed by
    merge_config_into_workflow_config and Workflow.load_members). -/

/-- One entity (non-workflow) configuration dict, reduced to the only field
the graph engine reads: ty is the value of the key _TYPE with the source
default "agent" already applied (config.get applied with default agent). -/
structure EntityConfig where
  ty : String := "agent"
deriving DecidableEq, Repr

/-- One entry of the members list of a workflow configuration document. -/
structure MemberDict where
  id : String
  agent_id : Option String := none
  loc_x : Int
  loc_y : Int := 0
  config : EntityConfig
deriving DecidableEq, Repr

/-- One entry of the inputs list of a workflow configuration document:
an edge directed from input_member_id (the dependency source) to
member_id (the dependent target), with its config dict inlined. -/
structure InputDict where
  member_id : String
  input_member_id : String
  input_type : String := "Message"
  looper : Bool := false
deriving DecidableEq, Repr

/-- A workflow configuration document. -/
structure WorkflowDoc where
  members : List MemberDict
  inputs : List InputDict
deriving DecidableEq, Repr

/-- A configuration blob is either a workflow document (dict with
_TYPE = workflow) or a single-entity document (any other _TYPE). -/
inductive ConfigDoc
  | workflow (doc : WorkflowDoc)
  | entity (c : EntityConfig)
deriving DecidableEq, Repr

/-- Embeds merge_config_into_workflow_config (src/utils/helpers.py lines
152-169): a workflow document is returned unchanged; an agent document is
wrapped into a two-member document (a user member plus the agent); any
other entity document is wrapped into a one-member document. -/
def merge_config_into_workflow_config (config : ConfigDoc)
    (entity_id : Option String := none) : WorkflowDoc :=
  match config with
  | .workflow doc => doc
  | .entity c =>
    if c.ty = "agent" then
      { members := [
          { id := "1", agent_id := none, loc_x := 20, loc_y := 64,
            config := { ty := "user" } },
          { id := "2", agent_id := entity_id, loc_x := 100, loc_y := 80,
            config := c } ],
        inputs := [] }
    else
      { members := [
          { id := "1", agent_id := none, loc_x := 100, loc_y := 80,
            config := c } ],
        inputs := [] }

/-- Embeds the head of Workflow.load_members (workflow.py lines 175-180):
for a workflow document the members come from the document; any other
document is passed through merge_config_into_workflow_config first.  The
inputs are read from the original config dict, so a single-entity document
contributes no inputs. -/
def sourceLists (config : ConfigDoc) : List MemberDict × List InputDict :=
  match config with
  | .workflow doc => (doc.members, doc.inputs)
  | .entity c => ((merge_config_into_workflow_config (.entity c)).members, [])

/-- Embeds the member_input_ids comprehension of load_members (lines
206-211): the non-looper dependency sources of a given member id. -/
def member_input_ids (inputs : List InputDict) (member_id : String) : List String :=
  (inputs.filter
    (fun i => decide (i.member_id = member_id) && !i.looper)).map
    (fun i => i.input_member_id)

/-- One inbound non-loop dependency step: b is a non-looper input of a. -/
def depStep (inputs : List InputDict) (a b : String) : Prop :=
  b ∈ member_input_ids inputs a

/-- Length-indexed chains of a step relation, used to connect the fuelled
recursions of the source to genuine transitive reachability. -/
inductive StepsN (r : String → String → Prop) : Nat → String → String → Prop
  | single {a b : String} : r a b → StepsN r 1 a b
  | head {a b c : String} {n : Nat} : r a b → StepsN r n b c → StepsN r (n + 1) a c

/-! The member instantiation loop of Workflow.load_members
    (workflow.py lines 182-284). -/

/-- The member types the instantiation branch of load_members accepts
(lines 228-242); any other type raises NotImplementedError. -/
def recognized_types : List String := ["agent", "workflow", "user", "block", "node"]

/-- The member types admitted to concurrency boxes (line 246). -/
def substantive_types : List String := ["workflow", "agent", "block"]

/-- Whether a member dict participates in box grouping (line 246). -/
def substantive (md : MemberDict) : Bool := decide (md.config.ty ∈ substantive_types)

/-- The mutable state threaded through the load_members while-loop.  The
members field is the insertion-ordered dict self.members; trace is
instrumentation recording the order in which members were instantiated (it
is not a field of the source object and is read by no definition of the
loop itself; it only lets order-sensitive properties be stated). -/
structure BuildState where
  members : List (String × MemberDict) := []
  boxes : List (List String) := []
  current_box : List String := []
  last_loc_x : Int := -100
  last_member_id : Option String := none
  trace : List MemberDict := []
deriving DecidableEq, Repr

/-- Python dict assignment d[k] = v: update in place when the key exists,
append otherwise. -/
def dictAssign (l : List (String × MemberDict)) (k : String) (v : MemberDict) :
    List (String × MemberDict) :=
  if l.any (fun p => decide (p.1 = k)) then
    l.map (fun p => if p.1 = k then (k, v) else p)
  else l ++ [(k, v)]

/-- The box-accumulation step of load_members (lines 246-258), run only for
substantive member types: a member within 10 of the previous substantive
location joins the in-progress box together with that previous member; a
farther member flushes the nonempty in-progress box into the box list. -/
def boxStep (st : BuildState) (md : MemberDict) : BuildState :=
  if (md.loc_x - st.last_loc_x).natAbs < 10 then
    let cb := match st.last_member_id with
      | some lastId => st.current_box.insert lastId
      | none => st.current_box
    { st with current_box := cb.insert md.id,
              last_loc_x := md.loc_x,
              last_member_id := some md.id }
  else
    let st1 := if st.current_box.isEmpty then st
      else { st with boxes := st.boxes ++ [st.current_box], current_box := [] }
    { st1 with last_loc_x := md.loc_x, last_member_id := some md.id }

/-- Processing one member dict once its dependencies are satisfied (lines
218-262): instantiate (unrecognized type raises NotImplementedError), run
the box logic for substantive types, and store the member in self.members.
The instantiated Member object is represented by its member dict. -/
def processMember (st : BuildState) (md : MemberDict) : Except String BuildState :=
  if md.config.ty ∈ recognized_types then
    let st1 := if substantive md then boxStep st md else st
    .ok { st1 with members := dictAssign st1.members md.id md,
                   trace := st1.trace ++ [md] }
  else
    .error "NotImplementedError"

/-- Whether a member dict passes the dependency gate of lines 213-216: all
of its non-looper input ids are keys of self.members already. -/
def eligibleB (doneKeys : List String) (inputs : List InputDict) (md : MemberDict) : Bool :=
  (member_input_ids inputs md.id).all (fun d => decide (d ∈ doneKeys))

/-- One pass of the while-loop: scan the remaining members in order and
return the first one whose dependency gate passes, with the rest of the
list (order preserved), or none when a whole pass makes no progress. -/
def findEligible (doneKeys : List String) (inputs : List InputDict) :
    List MemberDict → Option (MemberDict × List MemberDict)
  | [] => none
  | md :: rest =>
    if eligibleB doneKeys inputs md then some (md, rest)
    else match findEligible doneKeys inputs rest with
      | none => none
      | some (m, rest1) => some (m, md :: rest1)

/-- The while-loop of load_members (lines 191-262).  Each iteration removes
the first eligible member from the remaining list and processes it; a pass
that finds no eligible member loops forever in the source, modelled as an
error; fuel (one unit per removal) makes the recursion structural. -/
def buildLoop (inputs : List InputDict) :
    Nat → BuildState → List MemberDict → Except String BuildState
  | _, st, [] => .ok st
  | 0, _, _ => .error "load_members makes no progress"
  | fuel + 1, st, rem =>
    match findEligible (st.members.map Prod.fst) inputs rem with
    | none => .error "load_members makes no progress"
    | some (md, rest) =>
      match processMember st md with
      | .error e => .error e
      | .ok st1 => buildLoop inputs fuel st1 rest

/-- Embeds load_members up to the end of the while-loop: sort the members
by loc_x (the source uses the stable Python sort; a stable insertion sort
is used here) and run the instantiation loop. -/
def build (config : ConfigDoc) : Except String BuildState :=
  let ms := (sourceLists config).1
  let inputs := (sourceLists config).2
  let sorted := List.insertionSort (fun a b => a.loc_x ≤ b.loc_x) ms
  buildLoop inputs sorted.length {} sorted

/-- The box list right after the loop (lines 264-265): the nonempty
in-progress box is flushed at the end. -/
def finalBoxes (st : BuildState) : List (List String) :=
  st.boxes ++ (if st.current_box.isEmpty then [] else [st.current_box])

/-- The substantive members in instantiation order. -/
def subTrace (st : BuildState) : List MemberDict := st.trace.filter substantive

/-- Embeds Workflow.walk_inputs_recursive (lines 286-294): a depth-first
walk over the inbound non-loop inputs of member_id, true when it meets an
id of search_list.  The source recursion has no fuel; fuel running out
models its divergence and returns false. -/
def walk_inputs_recursive (inputs : List InputDict) :
    Nat → String → List String → Bool
  | 0, _, _ => false
  | fuel + 1, member_id, search_list =>
    (member_input_ids inputs member_id).any
      (fun inp => decide (inp ∈ search_list) ||
        walk_inputs_recursive inputs fuel inp search_list)

/-- Embeds the post-grouping validation of load_members (lines 267-275): a
box any of whose members can walk to a member of the same box is removed. -/
def validateBoxes (inputs : List InputDict) (fuel : Nat)
    (boxes : List (List String)) : List (List String) :=
  boxes.filter
    (fun box => !(box.any (fun member_id => walk_inputs_recursive inputs fuel member_id box)))

/-! Runtime members and turn bookkeeping (Workflow.get_members,
    next_expected_member, next_expected_is_last_member, save_message). -/

/-- A loaded member as the turn bookkeeping sees it: its id, its config
_TYPE (source default agent applied), and its turn_output slot. -/
structure RunMember where
  member_id : String
  ty : String := "agent"
  turn_output : Option String := none
deriving DecidableEq, Repr

/-- The default incl_types tuple of Workflow.get_members (line 298). -/
def all_member_types : List String := ["agent", "workflow", "user", "tool", "block", "node"]

/-- Embeds Workflow.get_members (lines 296-304): node is always added to
the excluded types, and members are filtered by the remaining included
types. -/
def get_members (ms : List RunMember)
    (incl_types : List String := all_member_types)
    (excl_types : List String := []) : List RunMember :=
  let excl := excl_types ++ ["node"]
  let incl := incl_types.filter (fun t => !decide (t ∈ excl))
  ms.filter (fun m => decide (m.ty ∈ incl))

/-- Embeds Workflow.next_expected_member (lines 312-317): the first member
of get_members whose turn_output is None. -/
def next_expected_member (ms : List RunMember) : Option RunMember :=
  (get_members ms).find? (fun m => m.turn_output.isNone)

/-- Embeds Workflow.next_expected_is_last_member (lines 319-322): exactly
one member of get_members has turn_output None. -/
def next_expected_is_last_member (ms : List RunMember) : Bool :=
  ((get_members ms).filter (fun m => m.turn_output.isNone)).length == 1

/-- Embeds Workflow.save_message (lines 368-380) up to the history append:
blank output-role content is replaced by a sentinel, truly empty content is
refused (no append, no toggle), and the parity flag alt_turn_state of the
message history is toggled exactly when no member of get_members has
turn_output None.  Returns the new parity flag and the appended
role-content pair, when any. -/
def normalized_content (role content : String) : String :=
  if role = "output" ∧ content.trim = "" then
    "The code executed without any output"
  else content

def save_message (ms : List RunMember) (alt_turn_state : Nat)
    (role content : String) : Nat × Option (String × String) :=
  if normalized_content role content = "" then (alt_turn_state, none)
  else
    (if (get_members ms).all (fun m => m.turn_output.isSome) then
       1 - alt_turn_state
     else alt_turn_state,
     some (role, normalized_content role content))

/-- Python str.lower, modelled character-wise over the string data (the
source lowercases the configured filter_role before comparing). -/
def py_lower (s : String) : String := ⟨s.data.map Char.toLower⟩

/-- The per-chunk yield decision of WorkflowBehaviour.receive for a member
with no concurrency group (lines 504-511): a SYS SKIP control chunk breaks
out, and a content chunk is yielded exactly when
next_expected_is_last_member holds, the running member is the next
expected member, and its key passes the lowercased filter_role of the
workflow config (read with default All, line 490). -/
def receive_yield_decision (filter_role_config : String) (ms : List RunMember)
    (member : RunMember) (key chunk : String) : Bool :=
  let filter_role := py_lower filter_role_config
  if key = "SYS" ∧ chunk = "SKIP" then false
  else
    match next_expected_member ms with
    | none => false
    | some nem =>
      next_expected_is_last_member ms && decide (member = nem) &&
        (decide (key = filter_role) || decide (filter_role = "all"))

/-! The traversal of WorkflowBehaviour.receive (lines 445-536), reduced to
    its control flow and engine-state bookkeeping: each producer run is
    summarized by an oracle outcome. -/

/-- The outcome of driving one producer to its end: it finishes (possibly
after a SKIP control marker), raises StopIteration (the source returns
from receive), is cancelled, or raises any other exception. -/
inductive ProducerOutcome
  | finishes | stops | cancels | fails
deriving DecidableEq, Repr

/-- How a turn ends. -/
inductive TurnExit
  | completed | paused | cancelled | errored
deriving DecidableEq, Repr

/-- The engine bookkeeping fields of the Workflow object that receive
mutates: gen_members and responding. -/
structure EngineState where
  gen_members : List String := []
  responding : Bool := false
deriving DecidableEq, Repr

/-- The parts of the workflow the traversal reads. -/
structure RunWorkflowCfg where
  members : List RunMember
  boxes : List (List String) := []
  autorun : Bool := true
deriving DecidableEq, Repr

/-- The member types that pause the turn (line 449). -/
def pause_on_types : List String := ["user", "contact"]

/-- Embeds Workflow.get_member_async_group (lines 324-328): the first box
containing the member id, if any. -/
def get_member_async_group (boxes : List (List String)) (member_id : String) :
    Option (List String) :=
  boxes.find? (fun box => box.contains member_id)

/-- The member loop of receive (lines 482-518): skip until the starting
member is found, skip members already processed as part of a group, run a
group as a gathered task set or a single member alone, then apply the
autorun and pause-type policy.  Producer failure propagates (errored) and
cancellation is caught silently (cancelled); both leave through the
finally of receive. -/
def receive_loop (wf : RunWorkflowCfg) (oracle : String → ProducerOutcome)
    (from_id : Option String) :
    EngineState → Bool → List String → List RunMember → EngineState × TurnExit
  | st, _, _, [] => (st, .completed)
  | st, found_source, processed, member :: rest =>
    let found := found_source || from_id == none || from_id == some member.member_id
    if !found then receive_loop wf oracle from_id st found processed rest
    else if processed.contains member.member_id then
      receive_loop wf oracle from_id st found processed rest
    else
      match get_member_async_group wf.boxes member.member_id with
      | some group =>
        let st1 := { st with gen_members := group }
        let newIds := group.filter (fun gid => !processed.contains gid)
        let processed1 := processed ++ newIds
        if newIds.any (fun gid => oracle gid == .fails) then (st1, .errored)
        else if newIds.any (fun gid => oracle gid == .cancels) then (st1, .cancelled)
        else if !wf.autorun then (st1, .paused)
        else if pause_on_types.contains member.ty && from_id != some member.member_id then
          (st1, .paused)
        else receive_loop wf oracle from_id st1 found processed1 rest
      | none =>
        let st1 := { st with gen_members := [member.member_id] }
        if oracle member.member_id == .fails then (st1, .errored)
        else if oracle member.member_id == .cancels then (st1, .cancelled)
        else if oracle member.member_id == .stops then (st1, .paused)
        else if !wf.autorun then (st1, .paused)
        else if pause_on_types.contains member.ty && from_id != some member.member_id then
          (st1, .paused)
        else receive_loop wf oracle from_id st1 found processed rest

/-- Embeds WorkflowBehaviour.receive (lines 445-536): gen_members is
cleared on entry; an empty member mapping returns before responding is
set; otherwise responding is set, the traversal runs, and the finally
block clears gen_members and responding on the way out of every path. -/
def receive (wf : RunWorkflowCfg) (st0 : EngineState)
    (oracle : String → ProducerOutcome) (from_id : Option String) :
    EngineState × TurnExit :=
  if wf.members.isEmpty then ({ st0 with gen_members := [] }, .completed)
  else
    ({ (receive_loop wf oracle from_id
          { st0 with gen_members := [], responding := true } false [] wf.members).1
        with gen_members := [], responding := false },
     (receive_loop wf oracle from_id
        { st0 with gen_members := [], responding := true } false [] wf.members).2)

/-! The edge editor of WorkflowSettings (add_input and
    check_for_circular_references, lines 1018-1063).  The lines dict is an
    association list keyed by the pair (target member_id, source
    input_member_id). -/

/-- The config dict of a line in the editor view. -/
structure LineConfig where
  input_type : String := "Message"
  looper : Bool := false
deriving DecidableEq, Repr

/-- The connected_input_members comprehension of
check_for_circular_references (lines 1056-1058): the sources of all
non-looper lines whose target lies in the given frontier. -/
def connected_members (lines : List ((String × String) × LineConfig))
    (input_member_ids : List String) : List String :=
  (lines.filter (fun p => decide (p.1.1 ∈ input_member_ids) && !p.2.looper)).map
    (fun p => p.1.2)

/-- Embeds WorkflowSettings.check_for_circular_references (lines
1054-1063): replace the frontier by the non-looper sources of all lines
whose target lies in the frontier; true when member_id appears, false when
the frontier empties.  The source recursion has no fuel; fuel running out
models its divergence and returns false. -/
def check_for_circular_references (lines : List ((String × String) × LineConfig)) :
    Nat → String → List String → Bool
  | 0, _, _ => false
  | fuel + 1, member_id, input_member_ids =>
    if member_id ∈ connected_members lines input_member_ids then true
    else if connected_members lines input_member_ids = [] then false
    else check_for_circular_references lines fuel member_id
      (connected_members lines input_member_ids)

/-- How one add_input call ends. -/
inductive AddInputResult
  | rejected_self | rejected_duplicate | rejected_circular | added
deriving DecidableEq, Repr

/-- Embeds WorkflowSettings.add_input (lines 1018-1050): a self edge and a
duplicate edge return before anything is touched; a circular non-looper
edge is rejected with a warning; otherwise the line is added and the
config saved.  Returns the new lines, the outcome, and whether save_config
ran. -/
def add_input (lines : List ((String × String) × LineConfig)) (fuel : Nat)
    (member_id input_member_id : String) (is_looper : Bool) :
    (List ((String × String) × LineConfig)) × AddInputResult × Bool :=
  if member_id = input_member_id then (lines, .rejected_self, false)
  else if lines.any (fun p => decide (p.1 = (member_id, input_member_id))) then
    (lines, .rejected_duplicate, false)
  else
    let cr_check := check_for_circular_references lines fuel member_id [input_member_id]
    if cr_check && !is_looper then (lines, .rejected_circular, false)
    else
      (lines ++ [((member_id, input_member_id),
        { input_type := "Message", looper := is_looper })], .added, true)

/-- One non-looper line step of the editor graph: the pair (a, b) is a
line from source b to target a, so b is a dependency of a. -/
def lineStep (lines : List ((String × String) × LineConfig)) (a b : String) : Prop :=
  ∃ c : LineConfig, ((a, b), c) ∈ lines ∧ c.looper = false

/-! Generic lemmas connecting length-indexed chains with transitive
    closure. -/

theorem stepsN_snoc {r : String → String → Prop} {a b c : String} {n : Nat}
    (hp : StepsN r n a b) (hbc : r b c) : StepsN r (n + 1) a c := by
  induction hp with
  | single h => exact .head h (.single hbc)
  | head h _ ih => exact .head h (ih hbc)

theorem stepsN_pos {r : String → String → Prop} {a b : String} {n : Nat}
    (hp : StepsN r n a b) : 1 ≤ n := by
  cases hp with
  | single _ => exact le_rfl
  | head _ _ => omega

theorem transGen_iff_stepsN {r : String → String → Prop} {a b : String} :
    Relation.TransGen r a b ↔ ∃ n, StepsN r n a b := by
  constructor
  · intro h
    induction h with
    | single h => exact ⟨1, .single h⟩
    | tail _ hbc ih =>
      obtain ⟨n, p⟩ := ih
      exact ⟨n + 1, stepsN_snoc p hbc⟩
  · rintro ⟨n, p⟩
    induction p with
    | single h => exact .single h
    | head h _ ih => exact .head h ih

/-! Correctness of walk_inputs_recursive against the inbound non-loop
    dependency relation. -/

theorem walk_complete (inputs : List InputDict) {n : Nat} {a b : String}
    (hp : StepsN (depStep inputs) n a b) :
    ∀ (search : List String) (fuel : Nat), b ∈ search → n ≤ fuel →
      walk_inputs_recursive inputs fuel a search = true := by
  induction hp with
  | single h =>
    intro search fuel hb hf
    cases fuel with
    | zero => omega
    | succ fuel =>
      rw [walk_inputs_recursive, List.any_eq_true]
      refine ⟨_, h, ?_⟩
      rw [Bool.or_eq_true]
      exact Or.inl (decide_eq_true hb)
  | head h _ ih =>
    intro search fuel hb hf
    cases fuel with
    | zero => exact absurd hf (by omega)
    | succ fuel =>
      rw [walk_inputs_recursive, List.any_eq_true]
      refine ⟨_, h, ?_⟩
      rw [Bool.or_eq_true]
      exact Or.inr (ih search fuel hb (by omega))

/-- C1: for every workflow configuration, every concurrency group (box)
retained after the post-grouping validation of load_members satisfies: no
member of the group can reach another member of the same group by
transitively following inbound non-loop edges.  The hypothesis quantifies
the retention over every fuel, which is exactly what holding the box after
the terminating source walk means (when the source walk diverges, the box
is never retained because load_members never returns). -/
theorem retained_box_members_unreachable (inputs : List InputDict)
    (boxes : List (List String)) (box : List String)
    (hval : ∀ fuel : Nat, box ∈ validateBoxes inputs fuel boxes)
    (m m2 : String) (hm : m ∈ box) (hm2 : m2 ∈ box) (hne : m ≠ m2) :
    ¬ Relation.TransGen (depStep inputs) m m2 := by
  intro h
  obtain ⟨n, p⟩ := transGen_iff_stepsN.mp h
  have hmem := hval n
  rw [validateBoxes, List.mem_filter] at hmem
  have hwalk := walk_complete inputs p box n hm2 le_rfl
  have hfalse := hmem.2
  rw [Bool.not_eq_true', List.any_eq_false] at hfalse
  exact absurd hwalk (by simpa using hfalse m hm)

/-- Witness for C1: a concrete two-member box over an empty edge list is
retained at every fuel and its members are mutually unreachable. -/
theorem retained_box_members_unreachable_witness :
    ¬ Relation.TransGen (depStep []) "a" "b" :=
  retained_box_members_unreachable [] [["a", "b"]] ["a", "b"]
    (fun fuel => by
      cases fuel <;>
        simp [validateBoxes, walk_inputs_recursive, member_input_ids])
    "a" "b" (by decide) (by decide) (by decide)

/-! Correctness of check_for_circular_references against the non-looper
    line graph. -/

theorem mem_connected_iff (lines : List ((String × String) × LineConfig))
    (frontier : List String) (b : String) :
    b ∈ connected_members lines frontier ↔ ∃ a ∈ frontier, lineStep lines a b := by
  rw [connected_members, List.mem_map]
  constructor
  · rintro ⟨p, hp, rfl⟩
    rw [List.mem_filter, Bool.and_eq_true, Bool.not_eq_true', decide_eq_true_eq] at hp
    exact ⟨p.1.1, hp.2.1, p.2, by simpa using hp.1, hp.2.2⟩
  · rintro ⟨a, ha, c, hc, hlo⟩
    refine ⟨((a, b), c), ?_, rfl⟩
    rw [List.mem_filter, Bool.and_eq_true, Bool.not_eq_true', decide_eq_true_eq]
    exact ⟨hc, ha, hlo⟩

theorem check_iff_aux (lines : List ((String × String) × LineConfig)) :
    ∀ (fuel : Nat) (member_id : String) (frontier : List String),
      check_for_circular_references lines fuel member_id frontier = true ↔
        ∃ s ∈ frontier, ∃ n, StepsN (lineStep lines) n s member_id ∧ n ≤ fuel := by
  intro fuel
  induction fuel with
  | zero =>
    intro member_id frontier
    rw [check_for_circular_references]
    constructor
    · intro h; exact absurd h (by decide)
    · rintro ⟨s, _, n, p, hn⟩
      exact absurd hn (by have := stepsN_pos p; omega)
  | succ fuel ih =>
    intro member_id frontier
    rw [check_for_circular_references]
    by_cases hmem : member_id ∈ connected_members lines frontier
    · rw [if_pos hmem]
      obtain ⟨a, ha, hstep⟩ := (mem_connected_iff lines frontier member_id).mp hmem
      exact iff_of_true rfl ⟨a, ha, 1, .single hstep, by omega⟩
    · rw [if_neg hmem]
      by_cases hempty : connected_members lines frontier = []
      · rw [if_pos hempty]
        constructor
        · intro h; exact absurd h (by decide)
        · rintro ⟨s, hs, n, p, hn⟩
          cases p with
          | single h =>
            exact absurd ((mem_connected_iff lines frontier member_id).mpr ⟨s, hs, h⟩)
              (by rw [hempty]; exact List.not_mem_nil _)
          | head h _ =>
            exact absurd ((mem_connected_iff lines frontier _).mpr ⟨s, hs, h⟩)
              (by rw [hempty]; exact List.not_mem_nil _)
      · rw [if_neg hempty, ih]
        constructor
        · rintro ⟨b, hb, n, p, hn⟩
          obtain ⟨a, ha, hstep⟩ := (mem_connected_iff lines frontier b).mp hb
          exact ⟨a, ha, n + 1, .head hstep p, by omega⟩
        · rintro ⟨s, hs, n, p, hn⟩
          cases p with
          | single h =>
            exact absurd ((mem_connected_iff lines frontier member_id).mpr ⟨s, hs, h⟩) hmem
          | head h ptail =>
            refine ⟨_, (mem_connected_iff lines frontier _).mpr ⟨s, hs, h⟩, _, ptail, by omega⟩

/-- C3: the circular-reference check of WorkflowSettings returns true iff
the target T is reachable from the candidate source S by transitively
following non-loop lines from dependent to dependency (equivalently, there
is a directed non-loop edge path from T to S in source-to-target
orientation, the situation in which the proposed edge (T, S) would close a
cycle); and an edge flagged as a loop edge is never rejected as circular
by add_input, and is accepted outright whenever the self-edge and
duplicate early exits do not fire, regardless of the circularity that
would reject the same unflagged edge.  The bound hypothesis states that
fuel dominates every chain length, which is exactly the condition under
which the unfuelled source recursion terminates. -/
theorem circular_check_and_looper_spec (lines : List ((String × String) × LineConfig))
    (fuel : Nat) (T S : String)
    (hbound : ∀ (n : Nat) (a b : String), StepsN (lineStep lines) n a b → n ≤ fuel) :
    (check_for_circular_references lines fuel T [S] = true ↔
      Relation.TransGen (lineStep lines) S T) ∧
    (∀ (member_id input_member_id : String) (f2 : Nat),
      (add_input lines f2 member_id input_member_id true).2.1 ≠ .rejected_circular) ∧
    (∀ (member_id input_member_id : String) (f2 : Nat),
      member_id ≠ input_member_id →
      (∀ p ∈ lines, p.1 ≠ (member_id, input_member_id)) →
      (add_input lines f2 member_id input_member_id true).2.1 = .added) := by
  refine ⟨?_, ?_, ?_⟩
  · rw [check_iff_aux]
    constructor
    · rintro ⟨s, hs, n, p, _⟩
      rw [List.mem_singleton] at hs
      subst hs
      exact transGen_iff_stepsN.mpr ⟨n, p⟩
    · intro h
      obtain ⟨n, p⟩ := transGen_iff_stepsN.mp h
      exact ⟨S, List.mem_singleton_self S, n, p, hbound n S T p⟩
  · intro member_id input_member_id f2
    rw [add_input]
    by_cases hself : member_id = input_member_id
    · rw [if_pos hself]; intro h; cases h
    · rw [if_neg hself]
      by_cases hdup : lines.any (fun p => decide (p.1 = (member_id, input_member_id))) = true
      · rw [if_pos hdup]; intro h; cases h
      · rw [if_neg hdup]
        simp only [Bool.not_true, Bool.and_false]
        intro h; cases h
  · intro member_id input_member_id f2 hself hdup
    rw [add_input, if_neg hself, if_neg ?_]
    · simp only [Bool.not_true, Bool.and_false]
      rfl
    · rw [List.any_eq_true]
      rintro ⟨p, hp, hpe⟩
      exact hdup p hp (by simpa using hpe)

/-- Helper for the C3 witness: over a single non-looper line from source 1
to target 2, every chain of the line-step relation has length one. -/
theorem stepsN_single_line_bound :
    ∀ (n : Nat) (a b : String),
      StepsN (lineStep [(("2", "1"), { looper := false })]) n a b → n ≤ 1 := by
  have hstep : ∀ a b : String,
      lineStep [(("2", "1"), { looper := false })] a b → a = "2" ∧ b = "1" := by
    rintro a b ⟨c, hc, _⟩
    rw [List.mem_singleton, Prod.mk.injEq, Prod.mk.injEq] at hc
    exact ⟨hc.1.1, hc.1.2⟩
  intro n a b h
  cases h with
  | single _ => exact le_rfl
  | head h1 h2 =>
    obtain ⟨rfl, rfl⟩ := hstep _ _ h1
    cases h2 with
    | single h3 => exact absurd (hstep _ _ h3).1 (by decide)
    | head h3 _ => exact absurd (hstep _ _ h3).1 (by decide)

/-- Witness for C3 at a concrete graph: a single non-looper line with
target 2 and source 1 makes the proposed edge (target 1, source 2)
circular, and the loop-flagged version of that edge is accepted anyway. -/
theorem circular_check_and_looper_spec_witness :
    ((check_for_circular_references [(("2", "1"), { looper := false })] 1 "1" ["2"] = true ↔
        Relation.TransGen (lineStep [(("2", "1"), { looper := false })]) "2" "1") ∧
      (∀ (member_id input_member_id : String) (f2 : Nat),
        (add_input [(("2", "1"), { looper := false })] f2
          member_id input_member_id true).2.1 ≠ .rejected_circular) ∧
      (∀ (member_id input_member_id : String) (f2 : Nat),
        member_id ≠ input_member_id →
        (∀ p ∈ [(("2", "1"), ({ looper := false } : LineConfig))],
          p.1 ≠ (member_id, input_member_id)) →
        (add_input [(("2", "1"), { looper := false })] f2
          member_id input_member_id true).2.1 = .added)) ∧
    check_for_circular_references [(("2", "1"), { looper := false })] 1 "1" ["2"] = true ∧
    (add_input [(("2", "1"), { looper := false })] 1 "1" "2" true).2.1 = .added :=
  ⟨circular_check_and_looper_spec [(("2", "1"), { looper := false })] 1 "1" "2"
      stepsN_single_line_bound,
    by decide, by decide⟩

/-- C10: add_input leaves the line set unchanged and saves nothing when
the proposed target equals the source or when a line with the same
(target, source) key already exists; both early exits run before any
mutation or save_config call. -/
theorem add_input_noop_on_self_or_duplicate
    (lines : List ((String × String) × LineConfig)) (fuel : Nat)
    (member_id input_member_id : String) (is_looper : Bool)
    (h : member_id = input_member_id ∨ ∃ p ∈ lines, p.1 = (member_id, input_member_id)) :
    (add_input lines fuel member_id input_member_id is_looper).1 = lines ∧
    (add_input lines fuel member_id input_member_id is_looper).2.2 = false := by
  rw [add_input]
  by_cases hself : member_id = input_member_id
  · rw [if_pos hself]; exact ⟨rfl, rfl⟩
  · rw [if_neg hself]
    rcases h with h | ⟨p, hp, hpe⟩
    · exact absurd h hself
    · rw [if_pos (List.any_eq_true.mpr ⟨p, hp, decide_eq_true hpe⟩)]
      exact ⟨rfl, rfl⟩

/-- Witness for C10 at a concrete duplicate edge. -/
theorem add_input_noop_on_self_or_duplicate_witness :
    (add_input [(("2", "1"), { looper := false })] 3 "2" "1" false).1 =
      [(("2", "1"), { looper := false })] ∧
    (add_input [(("2", "1"), { looper := false })] 3 "2" "1" false).2.2 = false :=
  add_input_noop_on_self_or_duplicate [(("2", "1"), { looper := false })] 3 "2" "1" false
    (Or.inr ⟨(("2", "1"), { looper := false }), by decide, rfl⟩)

/-! A characterization of List.find?, shared by the theorems about
    next_expected_member and the yield decision. -/

theorem find?_some_characterization {α : Type} (p : α → Bool) :
    ∀ (l : List α) (x : α), l.find? p = some x →
      ∃ i : Nat, l[i]? = some x ∧ p x = true ∧
        ∀ j, j < i → ∀ y, l[j]? = some y → p y = false := by
  intro l
  induction l with
  | nil => intro x h; simp [List.find?] at h
  | cons a l ih =>
    intro x h
    by_cases hpa : p a = true
    · rw [List.find?_cons_of_pos _ hpa] at h
      injection h with h
      subst h
      exact ⟨0, by simp, hpa, fun j hj => absurd hj (by omega)⟩
    · rw [List.find?_cons_of_neg _ hpa] at h
      obtain ⟨i, hi, hpx, hlt⟩ := ih x h
      refine ⟨i + 1, by simpa using hi, hpx, ?_⟩
      intro j hj y hy
      cases j with
      | zero =>
        rw [List.getElem?_cons_zero] at hy
        injection hy with hy
        rw [← hy]
        cases hpab : p a with
        | false => rfl
        | true => exact absurd hpab hpa
      | succ j =>
        rw [List.getElem?_cons_succ] at hy
        exact hlt j (by omega) y hy

/-- C6: next_expected_member returns none iff every turn_output among the
get_members view of the participants is set; otherwise it returns the
earliest such member (the lowest-ordered participant) whose turn_output
is unset.  Structural nodes are excluded from the participant view by
get_members itself. -/
theorem next_expected_member_spec (ms : List RunMember) :
    (next_expected_member ms = none ↔ ∀ m ∈ get_members ms, m.turn_output ≠ none) ∧
    (∀ m : RunMember, next_expected_member ms = some m →
      m ∈ get_members ms ∧ m.turn_output = none ∧
      ∃ i : Nat, (get_members ms)[i]? = some m ∧
        ∀ j, j < i → ∀ m2, (get_members ms)[j]? = some m2 → m2.turn_output ≠ none) := by
  constructor
  · rw [next_expected_member, List.find?_eq_none]
    constructor
    · intro h m hm heq
      exact h m hm (by rw [heq]; rfl)
    · intro h m hm hnone
      exact h m hm (Option.isNone_iff_eq_none.mp hnone)
  · intro m hm
    have hmem := List.mem_of_find?_eq_some hm
    have hp := List.find?_some hm
    obtain ⟨i, hi, _, hlt⟩ := find?_some_characterization _ _ _ hm
    refine ⟨hmem, Option.isNone_iff_eq_none.mp hp, i, hi, ?_⟩
    intro j hj m2 hm2 heq
    have hfalse := hlt j hj m2 hm2
    rw [heq] at hfalse
    exact absurd hfalse (by decide)

def witness6_members : List RunMember :=
  [ { member_id := "0", ty := "node" },
    { member_id := "1", ty := "user", turn_output := some "hi" },
    { member_id := "2" },
    { member_id := "3" } ]

/-- Witness for C6: among a node, a user that already produced, and two
pending agents, the next expected member is the first pending agent. -/
theorem next_expected_member_spec_witness :
    ({ member_id := "2" } : RunMember) ∈ get_members witness6_members ∧
    ({ member_id := "2" } : RunMember).turn_output = none ∧
    ∃ i : Nat, (get_members witness6_members)[i]? = some { member_id := "2" } ∧
      ∀ j, j < i → ∀ m2, (get_members witness6_members)[j]? = some m2 →
        m2.turn_output ≠ none :=
  (next_expected_member_spec witness6_members).2 { member_id := "2" } (by decide)

/-- C4: a chunk of an ungrouped member is yielded only if that member is
the next expected member (the earliest member of the get_members view with
unset turn_output), it is the only member of that view still pending, and
the chunk key passes the lowercased role filter (all or an exact match). -/
theorem yield_only_if_next_expected_last (filter_role_config : String)
    (ms : List RunMember) (member : RunMember) (key chunk : String)
    (h : receive_yield_decision filter_role_config ms member key chunk = true) :
    (next_expected_member ms = some member ∧ member.turn_output = none ∧
      ∃ i : Nat, (get_members ms)[i]? = some member ∧
        ∀ j, j < i → ∀ m2, (get_members ms)[j]? = some m2 → m2.turn_output ≠ none) ∧
    (∀ m2 ∈ get_members ms, m2.turn_output = none → m2 = member) ∧
    (key = py_lower filter_role_config ∨ py_lower filter_role_config = "all") := by
  rw [receive_yield_decision] at h
  by_cases hskip : key = "SYS" ∧ chunk = "SKIP"
  · rw [if_pos hskip] at h; cases h
  · rw [if_neg hskip] at h
    cases hnem : next_expected_member ms with
    | none => rw [hnem] at h; cases h
    | some nem =>
      rw [hnem, Bool.and_eq_true, Bool.and_eq_true] at h
      obtain ⟨⟨hlast, hmember_eq⟩, hrole⟩ := h
      rw [decide_eq_true_eq] at hmember_eq
      subst hmember_eq
      have hmem := List.mem_of_find?_eq_some hnem
      have hp := List.find?_some hnem
      obtain ⟨i, hi, _, hlt⟩ := find?_some_characterization _ _ _ hnem
      refine ⟨⟨rfl, Option.isNone_iff_eq_none.mp hp, i, hi, ?_⟩, ?_, ?_⟩
      · intro j hj m2 hm2 heq
        have hfalse := hlt j hj m2 hm2
        rw [heq] at hfalse
        exact absurd hfalse (by decide)
      · intro m2 hm2 hnone2
        rw [next_expected_is_last_member, beq_iff_eq] at hlast
        obtain ⟨z, hz⟩ := List.length_eq_one.mp hlast
        have hm2f : m2 ∈ (get_members ms).filter (fun m => m.turn_output.isNone) :=
          List.mem_filter.mpr ⟨hm2, by rw [hnone2]; rfl⟩
        have hmf : member ∈ (get_members ms).filter (fun m => m.turn_output.isNone) :=
          List.mem_filter.mpr ⟨hmem, hp⟩
        rw [hz, List.mem_singleton] at hm2f hmf
        exact hm2f.trans hmf.symm
      · rw [Bool.or_eq_true, decide_eq_true_eq, decide_eq_true_eq] at hrole
        exact hrole

def witness4_members : List RunMember :=
  [ { member_id := "1", ty := "user", turn_output := some "q" },
    { member_id := "2" } ]

/-- Witness for C4: with a user that produced and a single pending agent,
a chunk from that agent satisfies all three yield conditions. -/
theorem yield_only_if_next_expected_last_witness :
    (next_expected_member witness4_members = some { member_id := "2" } ∧
      ({ member_id := "2" } : RunMember).turn_output = none ∧
      ∃ i : Nat, (get_members witness4_members)[i]? = some { member_id := "2" } ∧
        ∀ j, j < i → ∀ m2, (get_members witness4_members)[j]? = some m2 →
          m2.turn_output ≠ none) ∧
    (∀ m2 ∈ get_members witness4_members, m2.turn_output = none →
      m2 = { member_id := "2" }) ∧
    ("assistant" = py_lower "All" ∨ py_lower "All" = "all") :=
  yield_only_if_next_expected_last "All" witness4_members { member_id := "2" }
    "assistant" "hello" (by decide)

/-- C5 counterexample: with a single agent member whose turn_output is
unset, an ordinary stored append does not toggle the parity flag even
though every turn_output was unset immediately prior, refuting the claim
that the toggle happens exactly when all outputs were unset. -/
theorem save_message_toggle_claim_cex :
    ¬ (((save_message [{ member_id := "2" }] 0 "user" "hi").1 ≠ 0) ↔
        (∀ m ∈ get_members [({ member_id := "2" } : RunMember)],
          m.turn_output = none)) := by
  decide

/-- C5 (amended): for appends that actually store a message, save_message
toggles the parity flag exactly when every turn_output among the
get_members view was SET (not None) immediately prior to the append: the
source detects a new round as the completion of the previous one.  An
append refused for empty content never toggles. -/
theorem save_message_toggle_spec (ms : List RunMember) (alt : Nat)
    (role content : String) (halt : alt ≤ 1)
    (hsaved : (save_message ms alt role content).2 ≠ none) :
    ((save_message ms alt role content).1 ≠ alt ↔
      ∀ m ∈ get_members ms, m.turn_output ≠ none) := by
  rw [save_message] at hsaved ⊢
  by_cases hc : normalized_content role content = ""
  · rw [if_pos hc] at hsaved
    exact absurd rfl hsaved
  · rw [if_neg hc]
    by_cases hall : (get_members ms).all (fun m => m.turn_output.isSome) = true
    · rw [if_pos hall]
      show 1 - alt ≠ alt ↔ _
      constructor
      · intro _ m hm
        rw [List.all_eq_true] at hall
        exact Option.ne_none_iff_isSome.mpr (hall m hm)
      · intro _
        omega
    · rw [if_neg hall]
      show alt ≠ alt ↔ _
      constructor
      · intro h2
        exact absurd rfl h2
      · intro h2
        exact absurd
          (List.all_eq_true.mpr (fun m hm => Option.ne_none_iff_isSome.mp (h2 m hm))) hall

/-- Witness for C5 on a member whose output is already set: the append
toggles. -/
theorem save_message_toggle_spec_witness :
    (save_message [{ member_id := "2", turn_output := some "x" }] 0 "user" "hi").1 ≠ 0 ↔
      ∀ m ∈ get_members [({ member_id := "2", turn_output := some "x" } : RunMember)],
        m.turn_output ≠ none :=
  save_message_toggle_spec [{ member_id := "2", turn_output := some "x" }] 0 "user" "hi"
    (by decide) (by decide)

/-- C8 counterexample: a single-participant block document is wrapped into
a ONE-member workflow document with no human (user) member, refuting the
claim that every single-participant document becomes a two-participant
human-plus-participant document. -/
theorem merge_single_block_cex :
    (merge_config_into_workflow_config (.entity { ty := "block" }) none).members.length = 1 ∧
    ∀ md ∈ (merge_config_into_workflow_config (.entity { ty := "block" }) none).members,
      md.config.ty ≠ "user" := by
  decide

/-- C8 (amended): only a single-AGENT document (the default _TYPE) is
wrapped into a two-participant human-plus-agent workflow document; any
other single-participant document is wrapped into a one-member workflow
document containing just itself; load_members consumes exactly the
wrapped members (with no inputs) for any non-workflow document. -/
theorem merge_single_document_spec (c : EntityConfig) (entity_id : Option String) :
    (c.ty = "agent" →
      merge_config_into_workflow_config (.entity c) entity_id =
        { members := [
            { id := "1", agent_id := none, loc_x := 20, loc_y := 64,
              config := { ty := "user" } },
            { id := "2", agent_id := entity_id, loc_x := 100, loc_y := 80,
              config := c } ],
          inputs := [] }) ∧
    (c.ty ≠ "agent" →
      merge_config_into_workflow_config (.entity c) entity_id =
        { members := [
            { id := "1", agent_id := none, loc_x := 100, loc_y := 80, config := c } ],
          inputs := [] }) ∧
    sourceLists (.entity c) =
      ((merge_config_into_workflow_config (.entity c) none).members, ([] : List InputDict)) := by
  refine ⟨?_, ?_, rfl⟩
  · intro h
    rw [merge_config_into_workflow_config, if_pos h]
  · intro h
    rw [merge_config_into_workflow_config, if_neg h]

/-- Witness for C8 at the default agent config. -/
theorem merge_single_document_spec_witness :
    merge_config_into_workflow_config (.entity {}) (some "7") =
      { members := [
          { id := "1", agent_id := none, loc_x := 20, loc_y := 64,
            config := { ty := "user" } },
          { id := "2", agent_id := some "7", loc_x := 100, loc_y := 80,
            config := {} } ],
        inputs := [] } :=
  (merge_single_document_spec {} (some "7")).1 rfl

/-- C9: on every exit path of a turn over a nonempty member mapping
(completed, paused by autorun or by a pause member type, stopped early,
cancelled, or a propagated producer error), receive leaves gen_members
empty and responding false: the cleanup is the unconditional finally
block of the source. -/
theorem receive_cleanup (wf : RunWorkflowCfg) (st0 : EngineState)
    (oracle : String → ProducerOutcome) (from_id : Option String)
    (h : wf.members ≠ []) :
    (receive wf st0 oracle from_id).1.gen_members = [] ∧
    (receive wf st0 oracle from_id).1.responding = false := by
  rw [receive, if_neg (by simpa [List.isEmpty_iff] using h)]
  exact ⟨rfl, rfl⟩

/-- Witness for C9 on a concrete one-member workflow with an erroring
producer. -/
theorem receive_cleanup_witness :
    (receive { members := [{ member_id := "2" }] } {} (fun _ => .fails) none).1.gen_members = [] ∧
    (receive { members := [{ member_id := "2" }] } {} (fun _ => .fails) none).1.responding = false :=
  receive_cleanup { members := [{ member_id := "2" }] } {} (fun _ => .fails) none (by decide)

/-! Termination and completeness of the load_members instantiation loop. -/

theorem bool_eq_false {b : Bool} (h : ¬ b = true) : b = false := by
  cases b with
  | false => rfl
  | true => exact absurd rfl h

/-- In a nonempty remainder whose non-loop dependency relation is acyclic,
some member has no dependency left inside the remainder (the pigeonhole
argument: otherwise an infinite dependency walk inside the finite
remainder would revisit a member and close a cycle). -/
theorem exists_ready (inputs : List InputDict) (rem : List MemberDict) (hne : rem ≠ [])
    (hacyc : ∀ x : String, ¬ Relation.TransGen (depStep inputs) x x) :
    ∃ md ∈ rem, ∀ d ∈ member_input_ids inputs md.id, d ∉ rem.map MemberDict.id := by
  by_contra hcon
  push_neg at hcon
  have hstep : ∀ t : { x : String // x ∈ rem.map MemberDict.id },
      ∃ t2 : { x : String // x ∈ rem.map MemberDict.id }, depStep inputs t.1 t2.1 := by
    rintro ⟨x, hx⟩
    rw [List.mem_map] at hx
    obtain ⟨md, hmd, hid⟩ := hx
    obtain ⟨d, hd1, hd2⟩ := hcon md hmd
    rw [hid] at hd1
    exact ⟨⟨d, hd2⟩, hd1⟩
  choose g hg using hstep
  have hx0 : ∃ x, x ∈ rem.map MemberDict.id := by
    cases rem with
    | nil => exact absurd rfl hne
    | cons a l => exact ⟨a.id, by simp⟩
  obtain ⟨x0, hx0⟩ := hx0
  have hfs : ∀ n : Nat,
      depStep inputs (g^[n] ⟨x0, hx0⟩).1 (g^[n + 1] ⟨x0, hx0⟩).1 := by
    intro n
    rw [Function.iterate_succ_apply' g n _]
    exact hg (g^[n] ⟨x0, hx0⟩)
  have hchain : ∀ n k : Nat,
      Relation.TransGen (depStep inputs) (g^[n] ⟨x0, hx0⟩).1 (g^[n + k + 1] ⟨x0, hx0⟩).1 := by
    intro n k
    induction k with
    | zero => exact Relation.TransGen.single (hfs n)
    | succ k ih => exact Relation.TransGen.tail ih (hfs (n + k + 1))
  have hpig : ∀ n ∈ Finset.range ((rem.map MemberDict.id).toFinset.card + 1),
      (g^[n] ⟨x0, hx0⟩).1 ∈ (rem.map MemberDict.id).toFinset :=
    fun n _ => List.mem_toFinset.mpr (g^[n] ⟨x0, hx0⟩).2
  have hcard : (rem.map MemberDict.id).toFinset.card <
      (Finset.range ((rem.map MemberDict.id).toFinset.card + 1)).card := by
    rw [Finset.card_range]; omega
  obtain ⟨i, hi, j, hj, hij, hfij⟩ :=
    Finset.exists_ne_map_eq_of_card_lt_of_maps_to hcard hpig
  rcases Nat.lt_or_ge i j with hlt | hge
  · have hc := hchain i (j - i - 1)
    rw [show i + (j - i - 1) + 1 = j by omega] at hc
    rw [← hfij] at hc
    exact hacyc _ hc
  · have hji : j < i := by omega
    have hc := hchain j (i - j - 1)
    rw [show j + (i - j - 1) + 1 = i by omega] at hc
    rw [hfij] at hc
    exact hacyc _ hc

theorem findEligible_eq_none_iff (doneKeys : List String) (inputs : List InputDict) :
    ∀ rem : List MemberDict, findEligible doneKeys inputs rem = none ↔
      ∀ md ∈ rem, eligibleB doneKeys inputs md = false := by
  intro rem
  induction rem with
  | nil => simp [findEligible]
  | cons a l ih =>
    rw [findEligible]
    by_cases ha : eligibleB doneKeys inputs a = true
    · rw [if_pos ha]
      constructor
      · intro h; cases h
      · intro h
        exact absurd ha (by simp [h a (List.mem_cons_self a l)])
    · rw [if_neg ha]
      cases hfe : findEligible doneKeys inputs l with
      | none =>
        constructor
        · intro _ md hmd
          rcases List.mem_cons.mp hmd with rfl | hmem
          · exact bool_eq_false ha
          · exact (ih.mp hfe) md hmem
        · intro _; rfl
      | some p =>
        obtain ⟨m1, rest1⟩ := p
        constructor
        · intro h
          exact absurd h (by simp)
        · intro h
          have hnone := ih.mpr (fun md hmd => h md (List.mem_cons_of_mem a hmd))
          exact absurd (hnone.symm.trans hfe) (by simp)

theorem findEligible_eq_some_spec (doneKeys : List String) (inputs : List InputDict) :
    ∀ (rem rest : List MemberDict) (md : MemberDict),
      findEligible doneKeys inputs rem = some (md, rest) →
      eligibleB doneKeys inputs md = true ∧ List.Perm rem (md :: rest) := by
  intro rem
  induction rem with
  | nil => intro rest md h; rw [findEligible] at h; cases h
  | cons a l ih =>
    intro rest md h
    rw [findEligible] at h
    by_cases ha : eligibleB doneKeys inputs a = true
    · rw [if_pos ha] at h
      injection h with h
      injection h with h1 h2
      subst h1; subst h2
      exact ⟨ha, List.Perm.refl _⟩
    · rw [if_neg ha] at h
      cases hfe : findEligible doneKeys inputs l with
      | none => rw [hfe] at h; cases h
      | some p =>
        obtain ⟨m1, rest1⟩ := p
        rw [hfe] at h
        injection h with h
        injection h with h1 h2
        subst h1; subst h2
        obtain ⟨he, hperm⟩ := ih rest1 m1 hfe
        exact ⟨he, (hperm.cons a).trans (List.Perm.swap m1 a rest1)⟩

theorem boxStep_members (st : BuildState) (md : MemberDict) :
    (boxStep st md).members = st.members := by
  simp only [boxStep]
  split
  · rfl
  · split <;> rfl

theorem boxStep_trace (st : BuildState) (md : MemberDict) :
    (boxStep st md).trace = st.trace := by
  simp only [boxStep]
  split
  · rfl
  · split <;> rfl

theorem processMember_ok (st : BuildState) (md : MemberDict)
    (hty : md.config.ty ∈ recognized_types) :
    processMember st md = .ok
      { (if substantive md then boxStep st md else st) with
        members := dictAssign st.members md.id md,
        trace := st.trace ++ [md] } := by
  simp only [processMember, if_pos hty]
  by_cases hs : substantive md = true
  · simp only [if_pos hs, boxStep_members, boxStep_trace]
  · simp only [if_neg hs]

theorem dictAssign_fresh (l : List (String × MemberDict)) (k : String) (v : MemberDict)
    (h : k ∉ l.map Prod.fst) : dictAssign l k v = l ++ [(k, v)] := by
  have hne : ¬ (l.any (fun p => decide (p.1 = k)) = true) := by
    rw [List.any_eq_true]
    rintro ⟨p, hp, hpk⟩
    rw [decide_eq_true_eq] at hpk
    exact h (List.mem_map.mpr ⟨p, hp, hpk⟩)
  rw [dictAssign, if_neg hne]

/-- The load_members while-loop terminates and instantiates every
remaining member exactly once, provided the remaining ids are fresh and
mutually distinct, every remaining dependency id is either already loaded
or still remaining, every member type is recognized, and the non-loop
dependency relation is acyclic. -/
theorem buildLoop_ok (inputs : List InputDict) :
    ∀ (fuel : Nat) (rem : List MemberDict) (st : BuildState),
      rem.length ≤ fuel →
      ((st.members.map Prod.fst) ++ rem.map MemberDict.id).Nodup →
      (∀ md ∈ rem, ∀ d ∈ member_input_ids inputs md.id,
        d ∈ st.members.map Prod.fst ∨ d ∈ rem.map MemberDict.id) →
      (∀ md ∈ rem, md.config.ty ∈ recognized_types) →
      (∀ x : String, ¬ Relation.TransGen (depStep inputs) x x) →
      ∃ st2, buildLoop inputs fuel st rem = .ok st2 ∧
        List.Perm (st2.members.map Prod.fst)
          ((st.members.map Prod.fst) ++ rem.map MemberDict.id) ∧
        (∀ p ∈ st.members, p ∈ st2.members) ∧
        (∀ md ∈ rem, (md.id, md) ∈ st2.members) := by
  intro fuel
  induction fuel with
  | zero =>
    intro rem st hlen hnd hdeps htys hacyc
    have hrem : rem = [] := List.length_eq_zero.mp (Nat.le_zero.mp hlen)
    subst hrem
    exact ⟨st, rfl, by simp, fun p hp => hp, by simp⟩
  | succ fuel ih =>
    intro rem st hlen hnd hdeps htys hacyc
    cases rem with
    | nil => exact ⟨st, rfl, by simp, fun p hp => hp, by simp⟩
    | cons a l =>
      obtain ⟨md0, hmd0, hready⟩ := exists_ready inputs (a :: l) (by simp) hacyc
      have helig : eligibleB (st.members.map Prod.fst) inputs md0 = true := by
        rw [eligibleB, List.all_eq_true]
        intro d hd
        rcases hdeps md0 hmd0 d hd with h | h
        · exact decide_eq_true h
        · exact absurd h (hready d hd)
      cases hfe : findEligible (st.members.map Prod.fst) inputs (a :: l) with
      | none =>
        rw [findEligible_eq_none_iff] at hfe
        rw [hfe md0 hmd0] at helig
        cases helig
      | some p =>
        obtain ⟨md, rest⟩ := p
        obtain ⟨hmdelig, hperm⟩ := findEligible_eq_some_spec _ _ _ _ _ hfe
        have hmdrem : md ∈ (a :: l) := hperm.mem_iff.mpr (List.mem_cons_self md rest)
        have hty : md.config.ty ∈ recognized_types := htys md hmdrem
        have hfresh : md.id ∉ st.members.map Prod.fst := by
          intro hin
          exact List.disjoint_of_nodup_append hnd hin
            (List.mem_map_of_mem MemberDict.id hmdrem)
        have hproc := processMember_ok st md hty
        rw [dictAssign_fresh _ _ _ hfresh] at hproc
        have hidperm : List.Perm ((a :: l).map MemberDict.id)
            (md.id :: rest.map MemberDict.id) := by
          simpa using hperm.map MemberDict.id
        have hkeys2 :
            ({ (if substantive md then boxStep st md else st) with
                members := st.members ++ [(md.id, md)],
                trace := st.trace ++ [md] } : BuildState).members.map Prod.fst =
              st.members.map Prod.fst ++ [md.id] := by
          simp
        have hpermBig : List.Perm
            ((st.members.map Prod.fst) ++ (a :: l).map MemberDict.id)
            ((st.members.map Prod.fst ++ [md.id]) ++ rest.map MemberDict.id) := by
          rw [List.append_assoc, List.singleton_append]
          exact hidperm.append_left (st.members.map Prod.fst)
        have hlen2 : rest.length ≤ fuel := by
          have := hperm.length_eq
          simp at this hlen
          omega
        have hnd2 : (((st.members.map Prod.fst) ++ [md.id]) ++ rest.map MemberDict.id).Nodup :=
          hpermBig.nodup hnd
        obtain ⟨st3, hloop3, hperm3, hpres3, hvals3⟩ :=
          ih rest
            { (if substantive md then boxStep st md else st) with
              members := st.members ++ [(md.id, md)],
              trace := st.trace ++ [md] }
            hlen2
            (by rw [hkeys2]; exact hnd2)
            (by
              intro md2 hmd2 d hd
              have hmd2rem : md2 ∈ (a :: l) :=
                hperm.mem_iff.mpr (List.mem_cons_of_mem md hmd2)
              rcases hdeps md2 hmd2rem d hd with h | h
              · left
                rw [hkeys2]
                exact List.mem_append_left _ h
              · rcases List.mem_cons.mp (hidperm.mem_iff.mp h) with rfl | hrest
                · left
                  rw [hkeys2]
                  exact List.mem_append_right _ (List.mem_singleton_self _)
                · right
                  exact hrest)
            (fun md2 hmd2 =>
              htys md2 (hperm.mem_iff.mpr (List.mem_cons_of_mem md hmd2)))
            hacyc
        refine ⟨st3, ?_, ?_, ?_, ?_⟩
        · simp only [buildLoop, hfe, hproc]
          exact hloop3
        · refine hperm3.trans ?_
          rw [hkeys2]
          exact hpermBig.symm
        · intro p hp
          exact hpres3 p (List.mem_append_left _ hp)
        · intro md2 hmd2
          rcases List.mem_cons.mp (hperm.mem_iff.mp hmd2) with rfl | hrest
          · exact hpres3 (md2.id, md2) (List.mem_append_right _ (List.mem_singleton_self _))
          · exact hvals3 md2 hrest

/-- C2 counterexample helper: the empty edge list is acyclic. -/
theorem no_inputs_acyclic :
    ∀ x : String, ¬ Relation.TransGen (depStep ([] : List InputDict)) x x := by
  intro x h
  cases h with
  | single h1 => simp [depStep, member_input_ids] at h1
  | tail _ h2 => simp [depStep, member_input_ids] at h2

def cexDupA : MemberDict := { id := "1", loc_x := 10, config := {} }

def cexDupB : MemberDict := { id := "1", loc_x := 20, config := { ty := "block" } }

def cexDupCfg : WorkflowDoc := { members := [cexDupA, cexDupB], inputs := [] }

/-- C2 counterexample: a configuration with two members sharing the id 1
(no edges, so the acyclicity and existing-dependency hypotheses of the
claim hold) terminates but drops the first configured member: the mapping
holds one entry carrying only the second member dict. -/
theorem build_duplicate_id_cex :
    (build (.workflow cexDupCfg)).map (fun st => st.members) =
      .ok [("1", cexDupB)] ∧
    cexDupA ≠ cexDupB ∧ cexDupCfg.inputs = [] ∧ cexDupCfg.members = [cexDupA, cexDupB] := by
  refine ⟨rfl, by decide, rfl, rfl⟩

/-- C2 (amended): for every configuration whose participant ids are
distinct, whose member types are all recognized, whose referenced non-loop
dependency ids all exist among the configured participants, and whose
non-loop edge relation is acyclic, the instantiation loop of load_members
terminates and the resulting mapping holds each configured participant
exactly once (keys are a permutation of the configured ids, and each id
maps to its configured member). -/
theorem build_terminates_complete (cfg : WorkflowDoc)
    (hnodup : (cfg.members.map MemberDict.id).Nodup)
    (htypes : ∀ md ∈ cfg.members, md.config.ty ∈ recognized_types)
    (hdeps : ∀ md ∈ cfg.members, ∀ d ∈ member_input_ids cfg.inputs md.id,
      d ∈ cfg.members.map MemberDict.id)
    (hacyc : ∀ x : String, ¬ Relation.TransGen (depStep cfg.inputs) x x) :
    ∃ st, build (.workflow cfg) = .ok st ∧
      List.Perm (st.members.map Prod.fst) (cfg.members.map MemberDict.id) ∧
      (st.members.map Prod.fst).Nodup ∧
      ∀ md ∈ cfg.members, (md.id, md) ∈ st.members := by
  have hsp := List.perm_insertionSort (fun a b : MemberDict => a.loc_x ≤ b.loc_x) cfg.members
  have hidsp : List.Perm
      ((List.insertionSort (fun a b : MemberDict => a.loc_x ≤ b.loc_x) cfg.members).map
        MemberDict.id)
      (cfg.members.map MemberDict.id) := hsp.map MemberDict.id
  obtain ⟨st2, hloop, hperm2, _, hvals2⟩ :=
    buildLoop_ok cfg.inputs
      (List.insertionSort (fun a b : MemberDict => a.loc_x ≤ b.loc_x) cfg.members).length
      (List.insertionSort (fun a b : MemberDict => a.loc_x ≤ b.loc_x) cfg.members)
      {}
      le_rfl
      (by simpa using hidsp.symm.nodup hnodup)
      (by
        intro md hmd d hd
        right
        exact hidsp.mem_iff.mpr (hdeps md (hsp.mem_iff.mp hmd) d hd))
      (fun md hmd => htypes md (hsp.mem_iff.mp hmd))
      hacyc
  refine ⟨st2, hloop, ?_, ?_, ?_⟩
  · refine hperm2.trans ?_
    simpa using hidsp
  · exact ((hperm2.trans (by simpa using hidsp)).symm).nodup hnodup
  · intro md hmd
    exact hvals2 md (hsp.mem_iff.mpr hmd)

def witness2_edge : InputDict := { member_id := "2", input_member_id := "1" }

def witness2_cfg : WorkflowDoc :=
  { members := [ { id := "1", loc_x := 20, config := { ty := "user" } },
                 { id := "2", loc_x := 100, config := {} } ],
    inputs := [witness2_edge] }

theorem witness2_mii (a : String) :
    member_input_ids witness2_cfg.inputs a = if "2" = a then ["1"] else [] := by
  rw [member_input_ids]
  by_cases ha : ("2" : String) = a
  · rw [if_pos ha]
    simp [witness2_cfg, witness2_edge, List.filter_cons, ha]
  · rw [if_neg ha]
    simp [witness2_cfg, witness2_edge, List.filter_cons, ha]

theorem witness2_acyclic :
    ∀ x : String, ¬ Relation.TransGen (depStep witness2_cfg.inputs) x x := by
  have hstep : ∀ a b : String, depStep witness2_cfg.inputs a b → a = "2" ∧ b = "1" := by
    intro a b h
    rw [depStep, witness2_mii] at h
    by_cases ha : ("2" : String) = a
    · rw [if_pos ha] at h
      rw [List.mem_singleton] at h
      exact ⟨ha.symm, h⟩
    · rw [if_neg ha] at h
      cases h
  intro x hx
  cases hx with
  | single h1 =>
    obtain ⟨h1a, h1b⟩ := hstep _ _ h1
    exact absurd (h1a.symm.trans h1b) (by decide)
  | tail h1 h2 =>
    obtain ⟨h2a, h2b⟩ := hstep _ _ h2
    subst h2b
    subst h2a
    cases h1 with
    | single h3 => exact absurd (hstep _ _ h3).1 (by decide)
    | tail h3 h4 => exact absurd (hstep _ _ h4).2 (by decide)

/-- Witness for C2 on a concrete user-plus-agent configuration with one
dependency edge. -/
theorem build_terminates_complete_witness :
    ∃ st, build (.workflow witness2_cfg) = .ok st ∧
      List.Perm (st.members.map Prod.fst) (witness2_cfg.members.map MemberDict.id) ∧
      (st.members.map Prod.fst).Nodup ∧
      ∀ md ∈ witness2_cfg.members, (md.id, md) ∈ st.members :=
  build_terminates_complete witness2_cfg (by decide) (by decide) (by decide) witness2_acyclic

/-! The box-grouping invariant of the load_members loop, used to settle
    the claim about concurrency groups and position proximity. -/

/-- Every id placed in a finished or in-progress box belongs to an
instantiated substantive member. -/
def BoxInvElems (st : BuildState) : Prop :=
  (∀ box ∈ st.boxes, ∀ x ∈ box, ∃ md ∈ st.trace, md.id = x ∧ substantive md = true) ∧
  (∀ x ∈ st.current_box, ∃ md ∈ st.trace, md.id = x ∧ substantive md = true)

/-- The last-substantive bookkeeping fields track the most recently
instantiated substantive member. -/
def BoxInvLast (st : BuildState) : Prop :=
  ((subTrace st).getLast? = none → st.last_member_id = none) ∧
  (∀ md : MemberDict, (subTrace st).getLast? = some md →
    st.last_member_id = some md.id ∧ st.last_loc_x = md.loc_x)

/-- Two consecutively instantiated substantive members within the
proximity threshold share a finished box or the in-progress box. -/
def BoxInvPairs (st : BuildState) : Prop :=
  ∀ (i : Nat) (a b : MemberDict),
    (subTrace st)[i]? = some a → (subTrace st)[i + 1]? = some b →
    (b.loc_x - a.loc_x).natAbs < 10 →
    (∃ box ∈ st.boxes, a.id ∈ box ∧ b.id ∈ box) ∨
    (a.id ∈ st.current_box ∧ b.id ∈ st.current_box)

def BoxInv (st : BuildState) : Prop := BoxInvElems st ∧ BoxInvLast st ∧ BoxInvPairs st

theorem pair_split {α : Type} (l : List α) (b x y : α) (i : Nat)
    (hx : (l ++ [b])[i]? = some x) (hy : (l ++ [b])[i + 1]? = some y) :
    (l[i]? = some x ∧ l[i + 1]? = some y) ∨
    (i + 1 = l.length ∧ l.getLast? = some x ∧ y = b) := by
  rcases Nat.lt_trichotomy (i + 1) l.length with h | h | h
  · left
    rw [List.getElem?_append_left (by omega)] at hx
    rw [List.getElem?_append_left h] at hy
    exact ⟨hx, hy⟩
  · right
    have h0 : i + 1 - l.length = 0 := by omega
    rw [List.getElem?_append_right (by omega), h0, List.getElem?_cons_zero] at hy
    injection hy with hy
    have hx2 : l[i]? = some x := by
      rw [List.getElem?_append_left (by omega)] at hx
      exact hx
    refine ⟨h, ?_, hy.symm⟩
    rw [List.getLast?_eq_getElem?, show l.length - 1 = i by omega]
    exact hx2
  · exfalso
    rw [List.getElem?_append_right (by omega),
      List.getElem?_eq_none (by simp; omega)] at hy
    exact Option.noConfusion hy

theorem filter_sub_append (t : List MemberDict) (md : MemberDict)
    (hs : substantive md = true) :
    (t ++ [md]).filter substantive = t.filter substantive ++ [md] := by
  rw [List.filter_append]
  simp [hs]

theorem filter_sub_append_not (t : List MemberDict) (md : MemberDict)
    (hs : ¬ substantive md = true) :
    (t ++ [md]).filter substantive = t.filter substantive := by
  rw [List.filter_append]
  simp [bool_eq_false hs]

/-! boxStep computed in each of its four cases. -/

theorem boxStep_close_some (st : BuildState) (md : MemberDict) (lastId : String)
    (hclose : (md.loc_x - st.last_loc_x).natAbs < 10)
    (hlastid : st.last_member_id = some lastId) :
    boxStep st md =
      { st with current_box := (st.current_box.insert lastId).insert md.id,
                last_loc_x := md.loc_x, last_member_id := some md.id } := by
  simp only [boxStep, if_pos hclose, hlastid]

theorem boxStep_close_none (st : BuildState) (md : MemberDict)
    (hclose : (md.loc_x - st.last_loc_x).natAbs < 10)
    (hlastid : st.last_member_id = none) :
    boxStep st md =
      { st with current_box := st.current_box.insert md.id,
                last_loc_x := md.loc_x, last_member_id := some md.id } := by
  simp only [boxStep, if_pos hclose, hlastid]

theorem boxStep_far_flush (st : BuildState) (md : MemberDict)
    (hfar : ¬ (md.loc_x - st.last_loc_x).natAbs < 10)
    (hne : ¬ st.current_box.isEmpty = true) :
    boxStep st md =
      { st with boxes := st.boxes ++ [st.current_box], current_box := [],
                last_loc_x := md.loc_x, last_member_id := some md.id } := by
  simp only [boxStep, if_neg hfar, if_neg hne]

theorem boxStep_far_empty (st : BuildState) (md : MemberDict)
    (hfar : ¬ (md.loc_x - st.last_loc_x).natAbs < 10)
    (he : st.current_box.isEmpty = true) :
    boxStep st md =
      { st with last_loc_x := md.loc_x, last_member_id := some md.id } := by
  simp only [boxStep, if_neg hfar, if_pos he]

/-! Preservation of the invariant by one processed member, per case. -/

theorem boxInv_step_not_substantive (st : BuildState) (md : MemberDict)
    (mems : List (String × MemberDict))
    (hs : ¬ substantive md = true) (hinv : BoxInv st) :
    BoxInv { members := mems, boxes := st.boxes, current_box := st.current_box,
             last_loc_x := st.last_loc_x, last_member_id := st.last_member_id,
             trace := st.trace ++ [md] } := by
  obtain ⟨⟨helems1, helems2⟩, hlastInv, hpairs⟩ := hinv
  have htr : (st.trace ++ [md]).filter substantive = subTrace st :=
    filter_sub_append_not st.trace md hs
  refine ⟨⟨?_, ?_⟩, ⟨?_, ?_⟩, ?_⟩
  · intro box hbox x hx
    obtain ⟨md2, hmd2, hid, hsub⟩ := helems1 box hbox x hx
    exact ⟨md2, List.mem_append_left _ hmd2, hid, hsub⟩
  · intro x hx
    obtain ⟨md2, hmd2, hid, hsub⟩ := helems2 x hx
    exact ⟨md2, List.mem_append_left _ hmd2, hid, hsub⟩
  · intro hnone
    rw [subTrace] at hnone
    show st.last_member_id = none
    rw [htr] at hnone
    exact hlastInv.1 hnone
  · intro md2 hsome
    rw [subTrace] at hsome
    rw [htr] at hsome
    exact hlastInv.2 md2 hsome
  · intro i a b ha hb hcl
    rw [subTrace] at ha hb
    rw [htr] at ha hb
    exact hpairs i a b ha hb hcl

theorem boxInv_step_close_some (st : BuildState) (md : MemberDict) (lastId : String)
    (mems : List (String × MemberDict))
    (hs : substantive md = true)
    (hlastid : st.last_member_id = some lastId)
    (hinv : BoxInv st) :
    BoxInv { members := mems, boxes := st.boxes,
             current_box := (st.current_box.insert lastId).insert md.id,
             last_loc_x := md.loc_x, last_member_id := some md.id,
             trace := st.trace ++ [md] } := by
  obtain ⟨⟨helems1, helems2⟩, hlastInv, hpairs⟩ := hinv
  have htr : (st.trace ++ [md]).filter substantive = subTrace st ++ [md] :=
    filter_sub_append st.trace md hs
  have hlastmem : ∀ a : MemberDict, (subTrace st).getLast? = some a →
      a ∈ st.trace ∧ substantive a = true ∧ a.id = lastId := by
    intro a hgl
    have ha : a ∈ subTrace st := List.mem_of_mem_getLast? (by rw [hgl]; rfl)
    rw [subTrace, List.mem_filter] at ha
    have hlid := (hlastInv.2 a hgl).1
    rw [hlastid] at hlid
    injection hlid with hlid
    exact ⟨ha.1, ha.2, hlid.symm⟩
  refine ⟨⟨?_, ?_⟩, ⟨?_, ?_⟩, ?_⟩
  · intro box hbox x hx
    obtain ⟨md2, hmd2, hid, hsub⟩ := helems1 box hbox x hx
    exact ⟨md2, List.mem_append_left _ hmd2, hid, hsub⟩
  · intro x hx
    rcases List.mem_insert_iff.mp hx with rfl | hx2
    · exact ⟨md, List.mem_append_right _ (List.mem_singleton_self md), rfl, hs⟩
    · rcases List.mem_insert_iff.mp hx2 with rfl | hx3
      · cases hgl : (subTrace st).getLast? with
        | none =>
          rw [hlastInv.1 hgl] at hlastid
          cases hlastid
        | some a =>
          obtain ⟨hmem, hsub, hid⟩ := hlastmem a hgl
          exact ⟨a, List.mem_append_left _ hmem, hid, hsub⟩
      · obtain ⟨md2, hmd2, hid, hsub⟩ := helems2 x hx3
        exact ⟨md2, List.mem_append_left _ hmd2, hid, hsub⟩
  · intro hnone
    rw [subTrace] at hnone
    rw [htr, List.getLast?_concat] at hnone
    cases hnone
  · intro md2 hsome
    rw [subTrace] at hsome
    rw [htr, List.getLast?_concat] at hsome
    injection hsome with hsome
    subst hsome
    exact ⟨rfl, rfl⟩
  · intro i a b ha hb hcl
    rw [subTrace] at ha hb
    rw [htr] at ha hb
    rcases pair_split (subTrace st) md a b i ha hb with ⟨ha2, hb2⟩ | ⟨_, hgl, rfl⟩
    · rcases hpairs i a b ha2 hb2 hcl with ⟨box, hbox, haid, hbid⟩ | ⟨haid, hbid⟩
      · exact Or.inl ⟨box, hbox, haid, hbid⟩
      · exact Or.inr ⟨List.mem_insert_iff.mpr (Or.inr (List.mem_insert_iff.mpr (Or.inr haid))),
          List.mem_insert_iff.mpr (Or.inr (List.mem_insert_iff.mpr (Or.inr hbid)))⟩
    · obtain ⟨_, _, hid⟩ := hlastmem a hgl
      refine Or.inr ⟨?_, List.mem_insert_iff.mpr (Or.inl rfl)⟩
      exact List.mem_insert_iff.mpr (Or.inr (hid ▸ List.mem_insert_iff.mpr (Or.inl rfl)))

theorem boxInv_step_close_none (st : BuildState) (md : MemberDict)
    (mems : List (String × MemberDict))
    (hs : substantive md = true)
    (hlastid : st.last_member_id = none)
    (hinv : BoxInv st) :
    BoxInv { members := mems, boxes := st.boxes,
             current_box := st.current_box.insert md.id,
             last_loc_x := md.loc_x, last_member_id := some md.id,
             trace := st.trace ++ [md] } := by
  obtain ⟨⟨helems1, helems2⟩, hlastInv, hpairs⟩ := hinv
  have htr : (st.trace ++ [md]).filter substantive = subTrace st ++ [md] :=
    filter_sub_append st.trace md hs
  refine ⟨⟨?_, ?_⟩, ⟨?_, ?_⟩, ?_⟩
  · intro box hbox x hx
    obtain ⟨md2, hmd2, hid, hsub⟩ := helems1 box hbox x hx
    exact ⟨md2, List.mem_append_left _ hmd2, hid, hsub⟩
  · intro x hx
    rcases List.mem_insert_iff.mp hx with rfl | hx2
    · exact ⟨md, List.mem_append_right _ (List.mem_singleton_self md), rfl, hs⟩
    · obtain ⟨md2, hmd2, hid, hsub⟩ := helems2 x hx2
      exact ⟨md2, List.mem_append_left _ hmd2, hid, hsub⟩
  · intro hnone
    rw [subTrace] at hnone
    rw [htr, List.getLast?_concat] at hnone
    cases hnone
  · intro md2 hsome
    rw [subTrace] at hsome
    rw [htr, List.getLast?_concat] at hsome
    injection hsome with hsome
    subst hsome
    exact ⟨rfl, rfl⟩
  · intro i a b ha hb hcl
    rw [subTrace] at ha hb
    rw [htr] at ha hb
    rcases pair_split (subTrace st) md a b i ha hb with ⟨ha2, hb2⟩ | ⟨_, hgl, rfl⟩
    · rcases hpairs i a b ha2 hb2 hcl with ⟨box, hbox, haid, hbid⟩ | ⟨haid, hbid⟩
      · exact Or.inl ⟨box, hbox, haid, hbid⟩
      · exact Or.inr ⟨List.mem_insert_iff.mpr (Or.inr haid),
          List.mem_insert_iff.mpr (Or.inr hbid)⟩
    · exfalso
      have hcontra := (hlastInv.2 a hgl).1
      rw [hlastid] at hcontra
      cases hcontra

theorem boxInv_step_far_flush (st : BuildState) (md : MemberDict)
    (mems : List (String × MemberDict))
    (hs : substantive md = true)
    (hfar : ¬ (md.loc_x - st.last_loc_x).natAbs < 10)
    (hinv : BoxInv st) :
    BoxInv { members := mems, boxes := st.boxes ++ [st.current_box],
             current_box := [],
             last_loc_x := md.loc_x, last_member_id := some md.id,
             trace := st.trace ++ [md] } := by
  obtain ⟨⟨helems1, helems2⟩, hlastInv, hpairs⟩ := hinv
  have htr : (st.trace ++ [md]).filter substantive = subTrace st ++ [md] :=
    filter_sub_append st.trace md hs
  refine ⟨⟨?_, ?_⟩, ⟨?_, ?_⟩, ?_⟩
  · intro box hbox x hx
    rcases List.mem_append.mp hbox with hbox2 | hbox2
    · obtain ⟨md2, hmd2, hid, hsub⟩ := helems1 box hbox2 x hx
      exact ⟨md2, List.mem_append_left _ hmd2, hid, hsub⟩
    · rw [List.mem_singleton] at hbox2
      subst hbox2
      obtain ⟨md2, hmd2, hid, hsub⟩ := helems2 x hx
      exact ⟨md2, List.mem_append_left _ hmd2, hid, hsub⟩
  · intro x hx
    cases hx
  · intro hnone
    rw [subTrace] at hnone
    rw [htr, List.getLast?_concat] at hnone
    cases hnone
  · intro md2 hsome
    rw [subTrace] at hsome
    rw [htr, List.getLast?_concat] at hsome
    injection hsome with hsome
    subst hsome
    exact ⟨rfl, rfl⟩
  · intro i a b ha hb hcl
    rw [subTrace] at ha hb
    rw [htr] at ha hb
    rcases pair_split (subTrace st) md a b i ha hb with ⟨ha2, hb2⟩ | ⟨_, hgl, rfl⟩
    · rcases hpairs i a b ha2 hb2 hcl with ⟨box, hbox, haid, hbid⟩ | ⟨haid, hbid⟩
      · exact Or.inl ⟨box, List.mem_append_left _ hbox, haid, hbid⟩
      · exact Or.inl ⟨st.current_box,
          List.mem_append_right _ (List.mem_singleton_self _), haid, hbid⟩
    · exfalso
      have hloc := (hlastInv.2 a hgl).2
      rw [hloc] at hfar
      exact hfar hcl

theorem boxInv_step_far_empty (st : BuildState) (md : MemberDict)
    (mems : List (String × MemberDict))
    (hs : substantive md = true)
    (hfar : ¬ (md.loc_x - st.last_loc_x).natAbs < 10)
    (hinv : BoxInv st) :
    BoxInv { members := mems, boxes := st.boxes,
             current_box := st.current_box,
             last_loc_x := md.loc_x, last_member_id := some md.id,
             trace := st.trace ++ [md] } := by
  obtain ⟨⟨helems1, helems2⟩, hlastInv, hpairs⟩ := hinv
  have htr : (st.trace ++ [md]).filter substantive = subTrace st ++ [md] :=
    filter_sub_append st.trace md hs
  refine ⟨⟨?_, ?_⟩, ⟨?_, ?_⟩, ?_⟩
  · intro box hbox x hx
    obtain ⟨md2, hmd2, hid, hsub⟩ := helems1 box hbox x hx
    exact ⟨md2, List.mem_append_left _ hmd2, hid, hsub⟩
  · intro x hx
    obtain ⟨md2, hmd2, hid, hsub⟩ := helems2 x hx
    exact ⟨md2, List.mem_append_left _ hmd2, hid, hsub⟩
  · intro hnone
    rw [subTrace] at hnone
    rw [htr, List.getLast?_concat] at hnone
    cases hnone
  · intro md2 hsome
    rw [subTrace] at hsome
    rw [htr, List.getLast?_concat] at hsome
    injection hsome with hsome
    subst hsome
    exact ⟨rfl, rfl⟩
  · intro i a b ha hb hcl
    rw [subTrace] at ha hb
    rw [htr] at ha hb
    rcases pair_split (subTrace st) md a b i ha hb with ⟨ha2, hb2⟩ | ⟨_, hgl, rfl⟩
    · exact hpairs i a b ha2 hb2 hcl
    · exfalso
      have hloc := (hlastInv.2 a hgl).2
      rw [hloc] at hfar
      exact hfar hcl

/-- Processing one member preserves the box-grouping invariant. -/
theorem processMember_boxInv (st : BuildState) (md : MemberDict) (st2 : BuildState)
    (h : processMember st md = .ok st2) (hinv : BoxInv st) : BoxInv st2 := by
  rw [processMember] at h
  by_cases hty : md.config.ty ∈ recognized_types
  · rw [if_pos hty] at h
    injection h with h
    subst h
    by_cases hs : substantive md = true
    · simp only [if_pos hs, boxStep_trace]
      by_cases hclose : (md.loc_x - st.last_loc_x).natAbs < 10
      · cases hlastid : st.last_member_id with
        | some lastId =>
          rw [boxStep_close_some st md lastId hclose hlastid]
          exact boxInv_step_close_some st md lastId _ hs hlastid hinv
        | none =>
          rw [boxStep_close_none st md hclose hlastid]
          exact boxInv_step_close_none st md _ hs hlastid hinv
      · by_cases hempty : st.current_box.isEmpty = true
        · rw [boxStep_far_empty st md hclose hempty]
          exact boxInv_step_far_empty st md _ hs hclose hinv
        · rw [boxStep_far_flush st md hclose hempty]
          exact boxInv_step_far_flush st md _ hs hclose hinv
    · simp only [if_neg hs]
      exact boxInv_step_not_substantive st md _ hs hinv
  · rw [if_neg hty] at h
    cases h

theorem boxInv_init : BoxInv ({} : BuildState) := by
  refine ⟨⟨?_, ?_⟩, ⟨?_, ?_⟩, ?_⟩
  · intro box hbox
    cases hbox
  · intro x hx
    cases hx
  · intro _
    rfl
  · intro md2 hsome
    cases hsome
  · intro i a b ha
    cases ha

/-- The whole loop preserves the box-grouping invariant. -/
theorem buildLoop_boxInv (inputs : List InputDict) :
    ∀ (fuel : Nat) (rem : List MemberDict) (st st2 : BuildState),
      buildLoop inputs fuel st rem = .ok st2 → BoxInv st → BoxInv st2 := by
  intro fuel
  induction fuel with
  | zero =>
    intro rem st st2 h hinv
    cases rem with
    | nil =>
      rw [buildLoop] at h
      injection h with h
      subst h
      exact hinv
    | cons a l =>
      rw [buildLoop] at h
      · exact Except.noConfusion h
      · simp
  | succ fuel ih =>
    intro rem st st2 h hinv
    cases rem with
    | nil =>
      rw [buildLoop] at h
      injection h with h
      subst h
      exact hinv
    | cons a l =>
      simp only [buildLoop] at h
      cases hfe : findEligible (st.members.map Prod.fst) inputs (a :: l) with
      | none =>
        simp only [hfe] at h
        exact Except.noConfusion h
      | some p =>
        obtain ⟨md, rest⟩ := p
        simp only [hfe] at h
        cases hproc : processMember st md with
        | error e =>
          simp only [hproc] at h
          exact Except.noConfusion h
        | ok st1 =>
          simp only [hproc] at h
          exact ih rest st1 st2 h (processMember_boxInv st md st1 hproc hinv)

/-- C7 (amended): the pre-validation concurrency boxes produced by the
load_members loop (finished boxes plus the final flush of the in-progress
box) contain only ids of instantiated members of the substantive kinds
agent, sub-workflow and block (never human/user and never structural
node), and every pair of CONSECUTIVELY INSTANTIATED substantive members
whose loc_x ordinates differ by less than the fixed threshold 10 shares a
box.  Adjacency is in instantiation order (the order the dependency-driven
loop processes members), which differs from sorted order when a member is
deferred for unmet dependencies; and user members neither join boxes nor
flush them. -/
theorem boxes_from_adjacent_proximity (config : ConfigDoc) (st : BuildState)
    (hok : build config = .ok st) :
    (∀ box ∈ finalBoxes st, ∀ x ∈ box, ∃ md ∈ st.trace, md.id = x ∧ substantive md = true) ∧
    (∀ (i : Nat) (a b : MemberDict),
      (subTrace st)[i]? = some a → (subTrace st)[i + 1]? = some b →
      (b.loc_x - a.loc_x).natAbs < 10 →
      ∃ box ∈ finalBoxes st, a.id ∈ box ∧ b.id ∈ box) := by
  have hinv : BoxInv st :=
    buildLoop_boxInv (sourceLists config).2
      (List.insertionSort (fun a b : MemberDict => a.loc_x ≤ b.loc_x)
        (sourceLists config).1).length
      (List.insertionSort (fun a b : MemberDict => a.loc_x ≤ b.loc_x)
        (sourceLists config).1)
      {} st hok boxInv_init
  obtain ⟨⟨helems1, helems2⟩, _, hpairs⟩ := hinv
  constructor
  · intro box hbox x hx
    rw [finalBoxes] at hbox
    rcases List.mem_append.mp hbox with hbox2 | hbox2
    · exact helems1 box hbox2 x hx
    · by_cases hempty : st.current_box.isEmpty = true
      · rw [if_pos hempty] at hbox2
        cases hbox2
      · rw [if_neg hempty, List.mem_singleton] at hbox2
        subst hbox2
        exact helems2 x hx
  · intro i a b ha hb hcl
    rcases hpairs i a b ha hb hcl with ⟨box, hbox, haid, hbid⟩ | ⟨haid, hbid⟩
    · exact ⟨box, by rw [finalBoxes]; exact List.mem_append_left _ hbox, haid, hbid⟩
    · have hempty : ¬ st.current_box.isEmpty = true := by
        intro he
        rw [List.isEmpty_iff] at he
        rw [he] at haid
        cases haid
      refine ⟨st.current_box, ?_, haid, hbid⟩
      rw [finalBoxes, if_neg hempty]
      exact List.mem_append_right _ (List.mem_singleton_self _)

def cex7_cfg : WorkflowDoc :=
  { members := [ { id := "1", loc_x := 20, config := { ty := "user" } },
                 { id := "2", loc_x := 24, config := {} } ],
    inputs := [] }

/-- C7 counterexample: the human (user) participant at ordinate 20 and the
agent at 24 are adjacent participants of substantive kinds per the claim
(difference 4 < 10), yet load_members produces NO concurrency group at
all: the grouping branch of the loop skips user members entirely. -/
theorem boxes_user_excluded_cex :
    (build (.workflow cex7_cfg)).map (fun st => finalBoxes st) = .ok [] ∧
    (build (.workflow cex7_cfg)).map (fun st => st.members.map Prod.fst) =
      .ok ["1", "2"] := by
  exact ⟨rfl, rfl⟩

def witness7_cfg : WorkflowDoc :=
  { members := [ { id := "1", loc_x := 20, config := { ty := "user" } },
                 { id := "2", loc_x := 100, config := {} },
                 { id := "3", loc_x := 104, config := {} },
                 { id := "4", loc_x := 200, config := {} } ],
    inputs := [] }

def witness7_st : BuildState :=
  { members := [ ("1", { id := "1", loc_x := 20, config := { ty := "user" } }),
                 ("2", { id := "2", loc_x := 100, config := {} }),
                 ("3", { id := "3", loc_x := 104, config := {} }),
                 ("4", { id := "4", loc_x := 200, config := {} }) ],
    boxes := [["3", "2"]],
    current_box := [],
    last_loc_x := 200,
    last_member_id := some "4",
    trace := [ { id := "1", loc_x := 20, config := { ty := "user" } },
               { id := "2", loc_x := 100, config := {} },
               { id := "3", loc_x := 104, config := {} },
               { id := "4", loc_x := 200, config := {} } ] }

/-- Witness for C7: in the spec scenario (user at 20, agents at 100, 104
and 200), the two consecutively instantiated agents at 100 and 104 share
a box. -/
theorem boxes_from_adjacent_proximity_witness :
    ∃ box ∈ finalBoxes witness7_st, "2" ∈ box ∧ "3" ∈ box :=
  (boxes_from_adjacent_proximity (.workflow witness7_cfg) witness7_st rfl).2 0
    { id := "2", loc_x := 100, config := {} }
    { id := "3", loc_x := 104, config := {} }
    rfl rfl (by decide)

end AgentPilot
